import Mathlib

/-!
# Proton-therapy allocation and facility location: a verification of the heuristic core

Shallow embedding of the repository's algorithmic core:

* `HeuristicOptimizer.get_optimum` — the greedy marginal-gain allocator;
* `LinearBEDPredictor.estimate` — the linear-interpolation benefit estimator
  with its metered access path (`_getBED`, access counter, access log);
* `BEDPredictorUpperBoundNaive.estimate` — the flat-then-jump upper-bound
  estimator (`get_interp_gap`, `_get_first_n_estimates`,
  `_get_last_n_estimates`);
* `AccuracyHandler` — the evaluation harness (`_sum_BED`, `_run_lp_model`,
  `get_predictor_solution`), with the external exact LP solver abstracted as
  a function parameter;
* the simulated-annealing facility-location solver from the heuristics
  notebook (`nearest_neighbor`, `compute_cost`, `maybe_mutate`,
  `simulated_annealing`'s main loop).

Modelling conventions:

* Table values and distances are modelled in `ℤ`.  The distance matrix is
  read with `astype(int)` in the source; the benefit-table code performs
  only ring and order operations on its values, which `ℤ` models exactly
  (bit-exact float behaviour is out of scope).  Values produced by linear
  interpolation, which involve division, live in `ℚ`.
* Python expressions that can raise (`numpy` out-of-range indexing,
  `np.argmax` of an empty array, the estimators' early returns) are
  modelled with `Option`/`Except`: `none` / `.error` is the raised or
  returned failure.
* The source computes sample positions as `int(i * ((U - 1) / (g - 1)))`
  with float division; under exact real arithmetic this is
  `⌊i * (U - 1) / (g - 1)⌋`, i.e. `i * (U - 1) / (g - 1)` in `ℕ` division,
  which is how it is embedded here.
* The annealing code draws from Python's global random source: the draws
  (which opened site to mutate, and the outcome of the Metropolis
  comparison `p <= exp(-delta / T)`, a transcendental test on a fresh
  uniform draw) are threaded explicitly as a stream of `StepRand` values.
  The temperature schedule `T0 / ln(rep + 1)` and the stop temperature only
  decide how many iterations the while-loop performs, so runs are
  quantified over an arbitrary finite stream.
* Python `set` iteration order is unspecified; it is modelled as ascending
  order over the value range the solver can ever place in a set
  (`-1` and `0 .. N-1`, `-1` being the sentinel `nearest_neighbor` returns
  when no candidate is strictly below the initial bound `10000`).
-/

namespace Proton

/-- A benefit (BED) table: row `r` is recipient `r`, column `u` the
cumulative benefit of `u` allocated units (`benefit[r][u]` in the source). -/
abbrev BEDTable := List (List ℤ)

/-- Number of unit columns, `BED.shape[1]` (the source unpacks it as
`max_fractions_per_patient` in the predictor classes). -/
def numCols (B : BEDTable) : ℕ := (B.headD []).length

/-- `BED[i, j]` with out-of-range reads defaulting to `0`; used only where
the surrounding code has already established the indices are in range. -/
def entry (B : BEDTable) (i j : ℕ) : ℤ := (B.getD i []).getD j 0

/-- `np.argmax` of a one-dimensional array: the index of the first maximal
element, or `none` on the empty array (numpy raises `ValueError` there). -/
def npArgmax : List ℤ → Option ℕ
  | [] => none
  | x :: xs =>
    match npArgmax xs with
    | none => some 0
    | some k => if x < xs.getD k 0 then some (k + 1) else some 0

namespace HeuristicOptimizer

/-- One iteration of the greedy loop body in
`HeuristicOptimizer.get_optimum`: pick the recipient with the largest
next-unit marginal gain, give it one more unit, and update its gain —
to `0` once it reaches `max_fractions_per_patient`, otherwise to
`BED[p, state[p]+1] - BED[p, state[p]]` (whose out-of-range indexing,
reached when an already saturated recipient is picked again, is the
`none` case). -/
def greedyStep (B : BEDTable) (maxF : ℕ) (sb : List ℕ × List ℤ) :
    Option (List ℕ × List ℤ) := do
  let patient ← npArgmax sb.2
  let n := sb.1.getD patient 0 + 1
  let state := sb.1.set patient n
  if n = maxF then
    pure (state, sb.2.set patient 0)
  else
    let row := B.getD patient []
    let hi ← row[n + 1]?
    let lo ← row[n]?
    pure (state, sb.2.set patient (hi - lo))

/-- The `for i in range(self.capacity)` loop of `get_optimum`. -/
def greedyLoop (B : BEDTable) (maxF : ℕ) : ℕ → List ℕ × List ℤ → Option (List ℕ)
  | 0, sb => some sb.1
  | Nat.succ k, sb => (greedyStep B maxF sb).bind (greedyLoop B maxF k)

/-- `HeuristicOptimizer.get_optimum`: initialise every recipient at `0`
units and every marginal gain at `BED[:,1] - BED[:,0]`, then run the greedy
loop `capacity` times.  The result maps recipient `r` to its allocated unit
count (the source returns it as a dict over `range(num_patients)`). -/
def get_optimum (B : BEDTable) (capacity : ℕ) : Option (List ℕ) := do
  let benefit ← B.mapM (fun row => do
    let b1 ← row[1]?
    let b0 ← row[0]?
    pure (b1 - b0))
  greedyLoop B (numCols B - 1) capacity (List.replicate B.length 0, benefit)

end HeuristicOptimizer

/-- The notebook's `get_total_BED`: score an allocation against a table by
summing `benefit[patient, fractions]` over the solution. -/
def get_total_BED (B : BEDTable) (sol : List ℕ) : ℤ :=
  sol.enum.foldl (fun total p => total + entry B p.1 p.2) 0

/-- The mock benefit matrix of the repository's testing cell
(`ModelingTest.mock_BED_data`). -/
def mockBED : BEDTable := [[1, 10, 11], [1, 2, 3], [9, 10, 11]]

/-! ## Benefit-table estimators -/

/-- Failure modes of the estimators: the granularity range check (the
source prints a diagnostic and returns `None`) and the fatal
`NotImplementedError` raised when the sample set misses column `0`. -/
inductive EstErr where
  | invalidGranularity
  | missingAnchor
deriving DecidableEq

/-- The sampled column indices `[int(i * interp_step) for i in
range(granularity)]` with `interp_step = (U - 1) / (granularity - 1)`,
under exact (rational) arithmetic. -/
def accessedInds (U g : ℕ) : List ℕ :=
  (List.range g).map (fun i => i * (U - 1) / (g - 1))

/-- The metering state of a predictor: `access_counter` and the
access log `_accessed` of (recipient, unit) pairs already queried. -/
structure PredictorState where
  access_counter : ℕ
  accessed : List (ℕ × ℕ)
deriving DecidableEq

/-- `LinearBEDPredictor._getBED`: return `BED[i, j]`, counting the access
and logging the pair if it was not queried before. -/
def getBED (B : BEDTable) (s : PredictorState) (i j : ℕ) : ℤ × PredictorState :=
  if (i, j) ∈ s.accessed then (entry B i j, s)
  else (entry B i j, ⟨s.access_counter + 1, (i, j) :: s.accessed⟩)

/-- The metering effect of the comprehension
`[self._getBED(i, j) for ...]`: fold `_getBED` over the queried pairs,
keeping only the evolving state (each `_getBED` returns the table entry
itself, which the matrix assembly below reads back from the table). -/
def runAccesses (B : BEDTable) (pairs : List (ℕ × ℕ)) (s : PredictorState) :
    PredictorState :=
  pairs.foldl (fun st p => (getBED B st p.1 p.2).2) s

/-- Value of the linearly interpolated estimate at row `i`, column `c`
(`pd.DataFrame(estimate).interpolate(axis=1)`): sampled columns keep their
real value; other columns interpolate between the bracketing sampled
columns.  Leading/trailing unfilled columns cannot occur because the
sample set contains both `0` and `U - 1`. -/
def interpValue (B : BEDTable) (inds : List ℕ) (i c : ℕ) : ℚ :=
  if c ∈ inds then (entry B i c : ℚ)
  else
    let a := ((inds.filter (fun x => x ≤ c)).getLast?).getD 0
    match (inds.filter (fun x => c < x)).head? with
    | none => (entry B i a : ℚ)
    | some b =>
        (entry B i a : ℚ) +
          ((entry B i b : ℚ) - (entry B i a : ℚ)) * ((c : ℚ) - (a : ℚ)) / ((b : ℚ) - (a : ℚ))

namespace LinearBEDPredictor

/-- `LinearBEDPredictor.estimate`: validate the granularity (reject when
`granularity <= 1 or granularity > (U - 1) / 2`, real division — i.e. when
`2 * granularity > U - 1`), reset the access counter and log, query the
table at the sampled columns of every row through `_getBED`, and fill the
rest by linear interpolation.  Returns the estimate together with the
updated metering state. -/
def estimate (B : BEDTable) (s : PredictorState) (granularity : ℕ) :
    Except EstErr (List (List ℚ)) × PredictorState :=
  if granularity ≤ 1 ∨ 2 * granularity > numCols B - 1 then
    (Except.error EstErr.invalidGranularity, s)
  else
    let inds := accessedInds (numCols B) granularity
    let pairs := (List.range B.length).flatMap (fun i => inds.map (fun j => (i, j)))
    let s1 := runAccesses B pairs ⟨0, []⟩
    (Except.ok ((List.range B.length).map (fun i =>
      (List.range (numCols B)).map (fun c => interpValue B inds i c))), s1)

end LinearBEDPredictor

/-- `BEDPredictorUpperBoundNaive.get_interp_gap`: how many columns share a
value between two sampled positions of the reversed index list.  Positions
past the end give `1`; the `start > stop` `ValueError` branch is
unreachable from the only call site (`stop = start + 1`).  `ℕ` subtraction
matches the source because Python's `[v] * n` is empty for `n ≤ 0`, as is
`List.replicate` of a truncated difference. -/
def get_interp_gap (accessed_inds : List ℕ) (start stop : ℕ) : ℕ :=
  if accessed_inds.length < stop + 1 then 1
  else accessed_inds.getD start 0 - accessed_inds.getD stop 0

/-- The flattened per-recipient comprehension of
`_get_first_n_estimates`: for each position `ind` of the reversed index
list, `get_interp_gap` copies of the value at the sampled column. -/
def first_row_flat (val : ℕ → ℤ) (rev : List ℕ) : List ℤ :=
  rev.enum.flatMap (fun p => List.replicate (get_interp_gap rev p.1 (p.1 + 1)) (val p.2))

/-- Recursive form of `first_row_flat`, used for reasoning; proved equal to
it in `first_row_flat_eq_aux` below. -/
def firstFlatAux (val : ℕ → ℤ) : List ℕ → List ℤ
  | [] => []
  | [j] => List.replicate 1 (val j)
  | j :: j' :: rest => List.replicate (j - j') (val j) ++ firstFlatAux val (j' :: rest)

/-- `BEDPredictorUpperBoundNaive._get_first_n_estimates`: build the
flattened run-length list per recipient over the reversed sample indices,
then reverse each row.  The source flattens all recipients into one list
and reshapes with row length `accessed_inds_rev[0] + 1`; since every
per-recipient segment has exactly that length (each row's gaps telescope
to `last - first + 1` and the first sample is column `0`,
see `first_row_flat_length`), the reshape cuts exactly at recipient
boundaries and equals this per-row construction. -/
def first_n_estimates (B : BEDTable) (accessed_inds : List ℕ) : BEDTable :=
  (List.range B.length).map (fun i =>
    (first_row_flat (fun j => entry B i j) accessed_inds.reverse).reverse)

/-- `BEDPredictorUpperBoundNaive._get_last_n_estimates`: for the columns
past the last sampled index, extrapolate linearly with per-column increment
`BED[i, last] - BED[i, second last]`. -/
def last_n_estimates (B : BEDTable) (accessed_inds : List ℕ) : BEDTable :=
  let lastI := accessed_inds.getD (accessed_inds.length - 1) 0
  let prevI := accessed_inds.getD (accessed_inds.length - 2) 0
  let count := numCols B - lastI - 1
  (List.range B.length).map (fun i =>
    (List.range count).map (fun j =>
      entry B i lastI + (entry B i lastI - entry B i prevI) * ((j : ℤ) + 1)))

namespace BEDPredictorUpperBoundNaive

/-- `BEDPredictorUpperBoundNaive.estimate`: the same granularity
validation as the linear predictor, then the anchor check (failing with
the fatal `NotImplementedError` when `0` is not among the sampled
indices), then `np.c_[first_n_estimates, last_n_estimates]`.  The metering
state is not threaded here: `_getBED` always returns the table entry, and
no claim concerns this variant's counter. -/
def estimate (B : BEDTable) (granularity : ℕ) : Except EstErr BEDTable :=
  if granularity ≤ 1 ∨ 2 * granularity > numCols B - 1 then
    Except.error EstErr.invalidGranularity
  else
    let inds := accessedInds (numCols B) granularity
    if 0 ∈ inds then
      Except.ok (List.zipWith (· ++ ·) (first_n_estimates B inds) (last_n_estimates B inds))
    else
      Except.error EstErr.missingAnchor

end BEDPredictorUpperBoundNaive

/-- Row monotonicity (benefit non-decreasing in allocated units): the
domain assumption on benefit tables, stated in a decidable bounded form. -/
def monoRow (row : List ℤ) : Prop :=
  ∀ k < row.length, k + 1 < row.length → row.getD k 0 ≤ row.getD (k + 1) 0

/-- Row concavity (non-increasing marginal gains), stated in a decidable
bounded form. -/
def concaveRow (row : List ℤ) : Prop :=
  ∀ k < row.length, k + 2 < row.length →
    row.getD (k + 2) 0 - row.getD (k + 1) 0 ≤ row.getD (k + 1) 0 - row.getD k 0

instance decMonoRow (row : List ℤ) : Decidable (monoRow row) :=
  inferInstanceAs (Decidable (∀ k < row.length, k + 1 < row.length →
    row.getD k 0 ≤ row.getD (k + 1) 0))

instance decConcaveRow (row : List ℤ) : Decidable (concaveRow row) :=
  inferInstanceAs (Decidable (∀ k < row.length, k + 2 < row.length →
    row.getD (k + 2) 0 - row.getD (k + 1) 0 ≤ row.getD (k + 1) 0 - row.getD k 0))

/-! ## Evaluation harness -/

namespace AccuracyHandler

/-- `AccuracyHandler._sum_BED`: total benefit of a proposed solution
(a recipient → column assignment, modelled as the dict's item list)
read off a given table. -/
def sum_BED (B : BEDTable) (solution : List (ℕ × ℕ)) : ℤ :=
  solution.foldl (fun total p => total + entry B p.1 p.2) 0

/-- `AccuracyHandler._run_lp_model`: build and solve the LP model on the
given matrix (the external exact solver is the opaque `solver` parameter),
then score the returned solution with `_sum_BED` — on the same matrix `B`
that was passed in, exactly as the source does. -/
def run_lp_model (solver : BEDTable → ℕ → List (ℕ × ℕ)) (B : BEDTable)
    (capacity : ℕ) : ℤ :=
  sum_BED B (solver B capacity)

/-- `AccuracyHandler.get_predictor_solution`: for each granularity in the
range, estimate the table and report `_run_lp_model` of the estimate
(the predictor's failure propagates). -/
def get_predictor_solution (solver : BEDTable → ℕ → List (ℕ × ℕ))
    (predictorEstimate : ℕ → Except EstErr BEDTable) (gran_range : List ℕ) :
    Except EstErr (List (ℕ × ℤ)) :=
  gran_range.mapM (fun gran =>
    (predictorEstimate gran).map (fun est => (gran, run_lp_model solver est 100)))

end AccuracyHandler

/-- A concrete stand-in for the external exact solver in the harness
demonstrations: it always assigns column `1` to recipient `0`. -/
def demoSolver : BEDTable → ℕ → List (ℕ × ℕ) := fun _ _ => [(0, 1)]

/-- Demonstration actual table for the harness claims. -/
def demoActual : BEDTable := [[0, 10]]

/-- Demonstration estimated table for the harness claims. -/
def demoEstimated : BEDTable := [[0, 5]]

/-! ## Simulated annealing (heuristics notebook) -/

/-- The random draws one iteration of the annealing loop consumes:
which opened site `random.sample(opened, 1)` picks (an index into the
set's iteration order, taken modulo the set size) and the outcome of the
Metropolis comparison `p <= math.exp(-delta / T)` on the fresh uniform
draw `p` (that outcome is `true` whenever `delta ≤ 0`, since then
`exp(-delta / T) ≥ 1 ≥ p`; for `delta > 0` it is a genuine coin flip). -/
structure StepRand where
  pick : ℕ
  acceptWorse : Bool

/-- The index universe `DC = DA = {0, ..., N-1}` as a set of integers. -/
def dcFinset (N : ℕ) : Finset ℤ :=
  (Finset.range N).map ⟨fun (n : ℕ) => (n : ℤ), fun a b h => Int.natCast_inj.mp h⟩

/-- Iteration order of a Python set of site indices: ascending over
`{-1} ∪ {0, ..., N-1}`, the only values the solver can ever place in a
set (`-1` being `nearest_neighbor`'s sentinel). -/
def ascMembers (N : ℕ) (s : Finset ℤ) : List ℤ :=
  ((List.range (N + 1)).map (fun (k : ℕ) => (k : ℤ) - 1)).filter (fun x => x ∈ s)

/-- `distance[i, j]` with Python/numpy semantics for the negative indices
the solver can produce: an index `-1` wraps to the last row/column.
Indices at or above the dimension never occur in a run. -/
def dget (D : List (List ℤ)) (i j : ℤ) : ℤ :=
  let row := D.getD ((i % (D.length : ℤ)).toNat) []
  row.getD ((j % (row.length : ℤ)).toNat) 0

/-- The loop body of `nearest_neighbor`: keep the first strictly smaller
distance seen so far. -/
def nnStep (D : List (List ℤ)) (here : ℤ) (acc : ℤ × ℤ) (place : ℤ) : ℤ × ℤ :=
  if dget D here place < acc.1 then (dget D here place, place) else acc

/-- `nearest_neighbor(here, world)`: scan `world`, starting from
`min_distance = 10000`, `closest = -1`. -/
def nearest_neighbor (D : List (List ℤ)) (here : ℤ) (world : List ℤ) : ℤ × ℤ :=
  world.foldl (nnStep D here) (10000, -1)

/-- `compute_cost(opened)`: total distance from every demand point to its
nearest member of `opened`. -/
def compute_cost (D : List (List ℤ)) (opened : Finset ℤ) : ℤ :=
  ((List.range D.length).map (fun da =>
    (nearest_neighbor D (da : ℤ) (ascMembers D.length opened)).1)).sum

/-- The `get_neighbor` closure inside `maybe_mutate`: pick an opened site,
find its nearest closed site, and swap them. -/
def get_neighbor (D : List (List ℤ)) (opened : Finset ℤ) (pick : ℕ) : Finset ℤ :=
  let lst := ascMembers D.length opened
  let previous := lst.getD (pick % lst.length) 0
  let world := ascMembers D.length (dcFinset D.length \ opened)
  insert (nearest_neighbor D previous world).2 (opened.erase previous)

/-- `maybe_mutate(opened, T)`: move to the neighbour when the Metropolis
draw accepts or the move strictly improves (`p <= exp(-delta/T) or
delta < 0` in the source; the first disjunct's outcome is
`r.acceptWorse`). -/
def maybe_mutate (D : List (List ℤ)) (opened : Finset ℤ) (r : StepRand) : Finset ℤ :=
  let neighbor := get_neighbor D opened r.pick
  let delta := compute_cost D neighbor - compute_cost D opened
  if r.acceptWorse = true ∨ delta < 0 then neighbor else opened

/-- The loop state of `simulated_annealing`: the current opened set, the
best set seen (`optimum`) and its cost (`optimal_cost`). -/
structure AnnealState where
  opened : Finset ℤ
  optimum : Finset ℤ
  optimal_cost : ℤ

/-- One iteration of the `while` loop of `simulated_annealing`: mutate,
then update the tracked best exactly when the current cost is strictly
below it. -/
def anneal_step (D : List (List ℤ)) (s : AnnealState) (r : StepRand) : AnnealState :=
  let opened := maybe_mutate D s.opened r
  if compute_cost D opened < s.optimal_cost then
    ⟨opened, opened, compute_cost D opened⟩
  else
    ⟨opened, s.optimum, s.optimal_cost⟩

/-- The whole annealing run from a given initial opened set
(`random.sample(DC, NUM_OPENED)` in the source): the stream holds the
random draws of the iterations the cooling schedule allows. -/
def anneal_run (D : List (List ℤ)) (init : Finset ℤ) (stream : List StepRand) :
    AnnealState :=
  stream.foldl (anneal_step D) ⟨init, init, compute_cost D init⟩

/-- A 3 × 3 distance matrix all of whose entries equal the sentinel bound
`10000` of `nearest_neighbor`. -/
def allTen3 : List (List ℤ) := List.replicate 3 (List.replicate 3 10000)

/-- A 2 × 2 distance matrix all of whose entries equal the sentinel bound
`10000` of `nearest_neighbor`. -/
def allTen2 : List (List ℤ) := List.replicate 2 (List.replicate 2 10000)

/-- A small well-behaved 2 × 2 distance matrix (all distances below the
sentinel bound). -/
def smallD : List (List ℤ) := [[0, 1], [1, 0]]

/-! ## Generic list helpers -/

theorem getD_mem_of_lt {α : Type} (l : List α) (d : α) (i : ℕ) (h : i < l.length) :
    l.getD i d ∈ l := by
  rw [List.getD_eq_getElem?_getD, List.getElem?_eq_getElem h, Option.getD_some]
  exact List.getElem_mem h

theorem sum_set_succ : ∀ (l : List ℕ) (i : ℕ), i < l.length →
    (l.set i (l.getD i 0 + 1)).sum = l.sum + 1
  | [], i, h => by simp at h
  | a :: t, 0, _ => by simp [List.sum_cons]; omega
  | a :: t, i + 1, h => by
    simp only [List.set_cons_succ, List.getD_cons_succ, List.sum_cons]
    rw [sum_set_succ t i (by simpa using h)]
    omega

theorem mapM_some_length {α β : Type} (f : α → Option β) :
    ∀ (l : List α) (l' : List β), l.mapM f = some l' → l'.length = l.length
  | [], l', h => by
    simp only [List.mapM_nil, pure, Option.some.injEq] at h
    simp [← h]
  | a :: t, l', h => by
    rw [List.mapM_cons] at h
    obtain ⟨b, hfa, h2⟩ := Option.bind_eq_some.mp h
    obtain ⟨bs, hm, h3⟩ := Option.bind_eq_some.mp h2
    have hbl : b :: bs = l' := by simpa using h3
    rw [← hbl, List.length_cons, List.length_cons, mapM_some_length f t bs hm]

/-! ## The greedy allocator: argmax and loop invariants -/

theorem npArgmax_lt : ∀ (l : List ℤ) (p : ℕ), npArgmax l = some p → p < l.length
  | [], p, h => by simp [npArgmax] at h
  | x :: xs, p, h => by
    rw [npArgmax] at h
    cases hx : npArgmax xs with
    | none =>
      rw [hx] at h
      simp only [Option.some.injEq] at h
      simp [← h]
    | some k =>
      rw [hx] at h
      simp only [] at h
      by_cases hc : x < xs.getD k 0
      · rw [if_pos hc] at h
        simp only [Option.some.injEq] at h
        have := npArgmax_lt xs k hx
        simp only [List.length_cons]
        omega
      · rw [if_neg hc] at h
        simp only [Option.some.injEq] at h
        simp [← h]

theorem greedyStep_spec (B : BEDTable) (U : ℕ)
    (hrows : ∀ row ∈ B, row.length = U)
    (state : List ℕ) (benefit : List ℤ) (out : List ℕ × List ℤ)
    (hs : state.length = B.length) (hb : benefit.length = B.length)
    (hbound : ∀ x ∈ state, x ≤ U - 1)
    (h : HeuristicOptimizer.greedyStep B (numCols B - 1) (state, benefit) = some out) :
    out.1.length = B.length ∧ out.2.length = B.length ∧
      (∀ x ∈ out.1, x ≤ U - 1) ∧ out.1.sum = state.sum + 1 := by
  unfold HeuristicOptimizer.greedyStep at h
  obtain ⟨patient, hp, h2⟩ := Option.bind_eq_some.mp h
  simp only [] at hp h2
  have hplt : patient < B.length := hb ▸ npArgmax_lt benefit patient hp
  have hslt : patient < state.length := by omega
  have hrowmem : B.getD patient [] ∈ B := getD_mem_of_lt B [] patient hplt
  have hrowlen : (B.getD patient []).length = U := hrows _ hrowmem
  have hcols : numCols B = U := by
    have hne : B.headD [] ∈ B := by
      cases B with
      | nil => simp at hplt
      | cons r t => simp
    exact hrows _ hne
  split at h2
  · rename_i hmax
    simp only [pure, Option.some.injEq] at h2
    rw [← h2]
    refine ⟨by simp [List.length_set, hs], by simp [List.length_set, hb], ?_, ?_⟩
    · intro x hx
      rcases List.mem_or_eq_of_mem_set hx with hx' | hx'
      · exact hbound x hx'
      · rw [hx', hmax, hcols]
    · exact sum_set_succ state patient hslt
  · rename_i hmax
    obtain ⟨hi, hhi, h3⟩ := Option.bind_eq_some.mp h2
    obtain ⟨lo, hlo, h4⟩ := Option.bind_eq_some.mp h3
    have hinrange : state.getD patient 0 + 1 + 1 < (B.getD patient []).length := by
      by_contra hc
      rw [List.getElem?_eq_none (by omega)] at hhi
      simp at hhi
    simp only [pure, Option.some.injEq] at h4
    rw [← h4]
    refine ⟨by simp [List.length_set, hs], by simp [List.length_set, hb], ?_, ?_⟩
    · intro x hx
      rcases List.mem_or_eq_of_mem_set hx with hx' | hx'
      · exact hbound x hx'
      · omega
    · exact sum_set_succ state patient hslt

theorem greedyLoop_spec (B : BEDTable) (U : ℕ) (hrows : ∀ row ∈ B, row.length = U) :
    ∀ (k : ℕ) (state : List ℕ) (benefit : List ℤ) (alloc : List ℕ),
      state.length = B.length → benefit.length = B.length →
      (∀ x ∈ state, x ≤ U - 1) →
      HeuristicOptimizer.greedyLoop B (numCols B - 1) k (state, benefit) = some alloc →
      alloc.length = B.length ∧ alloc.sum = state.sum + k ∧ ∀ x ∈ alloc, x ≤ U - 1
  | 0, state, benefit, alloc, hs, _, hbd, h => by
    simp only [HeuristicOptimizer.greedyLoop, Option.some.injEq] at h
    rw [← h]
    exact ⟨hs, by omega, hbd⟩
  | Nat.succ k, state, benefit, alloc, hs, hb, hbd, h => by
    have h' : (HeuristicOptimizer.greedyStep B (numCols B - 1) (state, benefit)).bind
        (HeuristicOptimizer.greedyLoop B (numCols B - 1) k) = some alloc := h
    cases hstep : HeuristicOptimizer.greedyStep B (numCols B - 1) (state, benefit) with
    | none => rw [hstep] at h'; simp at h'
    | some mid =>
      rw [hstep, Option.some_bind] at h'
      obtain ⟨h1, h2, h3, h4⟩ := greedyStep_spec B U hrows state benefit mid hs hb hbd hstep
      obtain ⟨g1, g2, g3⟩ := greedyLoop_spec B U hrows k mid.1 mid.2 alloc h1 h2 h3 h'
      exact ⟨g1, by omega, g3⟩

/-- C3 (amended): whenever `get_optimum` does return an allocation (no
out-of-range table access occurred), its total equals
`min(capacity, sum of maxima)` — in fact it then equals `capacity`, which
is forced to be at most the sum of maxima.  (The claim's unconditional
form fails: on some tables the allocator raises instead of returning.) -/
theorem get_optimum_total (B : BEDTable) (U capacity : ℕ) (alloc : List ℕ)
    (hrows : ∀ row ∈ B, row.length = U)
    (h : HeuristicOptimizer.get_optimum B capacity = some alloc) :
    alloc.sum = min capacity (B.length * (U - 1)) := by
  unfold HeuristicOptimizer.get_optimum at h
  obtain ⟨benefit, hbe, hloop⟩ := Option.bind_eq_some.mp h
  have hblen : benefit.length = B.length := mapM_some_length _ B benefit hbe
  obtain ⟨hlen, hsum, hbd⟩ := greedyLoop_spec B U hrows capacity
    (List.replicate B.length 0) benefit alloc (by simp) hblen
    (by intro x hx; rw [List.eq_of_mem_replicate hx]; exact Nat.zero_le _) hloop
  have hcap : alloc.sum = capacity := by simpa using hsum
  have hle : alloc.sum ≤ alloc.length * (U - 1) := by
    have := List.sum_le_card_nsmul alloc (U - 1) hbd
    simpa [smul_eq_mul] using this
  rw [hlen, hcap] at hle
  rw [hcap]
  exact (min_eq_left hle).symm

/-- C3 counterexample: the claim as stated fails — on the monotone table
`[[0, 5], [0, 0]]` with capacity `2 = min(2, sum of maxima)`, the greedy
allocator re-selects the saturated recipient `0` (its sentinel gain `0`
ties the genuine zero gain of recipient `1` and `np.argmax` takes the
first index) and crashes on the out-of-range read `BED[0, 3]`, so no
dictionary with total `2` is returned. -/
theorem get_optimum_total_counterexample :
    HeuristicOptimizer.get_optimum [[0, 5], [0, 0]] 2 = none := by rfl

/-- Witness for `get_optimum_total` at a concrete successful run. -/
theorem get_optimum_total_witness :
    ([1, 0] : List ℕ).sum = min 1 (([[0, 1], [0, 1]] : BEDTable).length * (2 - 1)) :=
  get_optimum_total [[0, 1], [0, 1]] 2 1 [1, 0] (by decide) (by rfl)

/-- C4 counterexample: on the mock matrix the sum of maxima is `6`, and
already at capacity `7` the greedy allocator crashes on an out-of-range
read (`np.argmax` of the all-zero gain vector re-selects the saturated
recipient `0`, whose updated state indexes `BED[0, 4]`), instead of
allocating every recipient its maximum. -/
theorem mock_saturation_counterexample :
    HeuristicOptimizer.get_optimum mockBED 7 = none := by rfl

/-- C4 (amended): on the mock matrix `[[1,10,11],[1,2,3],[9,10,11]]` at
capacity exactly `6` (the sum of maxima) every recipient is allocated its
maximum of `2` units and the objective scored on the real table is `25`;
at every capacity `≥ 7` `get_optimum` fails with an out-of-range table
access rather than returning that saturated allocation. -/
theorem mock_saturation :
    HeuristicOptimizer.get_optimum mockBED 6 = some [2, 2, 2]
  ∧ get_total_BED mockBED [2, 2, 2] = 25
  ∧ ∀ k : ℕ, HeuristicOptimizer.get_optimum mockBED (k + 7) = none :=
  ⟨rfl, rfl, fun _ => rfl⟩

/-- The marginal-gain initialisation `BED[:,1] - BED[:,0]` succeeds on any
table whose rows have at least two columns. -/
theorem benefit_init_exists (B : BEDTable) (h : ∀ row ∈ B, 2 ≤ row.length) :
    ∃ benefit : List ℤ, B.mapM (fun row => do
      let b1 ← row[1]?
      let b0 ← row[0]?
      pure (b1 - b0)) = some benefit := by
  induction B with
  | nil => exact ⟨[], rfl⟩
  | cons r t ih =>
    obtain ⟨bs, hbs⟩ := ih (fun row hr => h row (List.mem_cons_of_mem _ hr))
    have h2 : 2 ≤ r.length := h r (List.mem_cons_self r t)
    have h1lt : 1 < r.length := by omega
    have h0lt : 0 < r.length := by omega
    refine ⟨(r[1] - r[0]) :: bs, ?_⟩
    rw [List.mapM_cons, List.getElem?_eq_getElem h1lt, List.getElem?_eq_getElem h0lt, hbs]
    rfl

/-- C8 counterexample: with zero recipients and positive capacity the
greedy allocator does not return an empty allocation — it fails
(`np.argmax` of the empty gain vector raises `ValueError`). -/
theorem degenerate_inputs_counterexample :
    HeuristicOptimizer.get_optimum ([] : BEDTable) 1 = none := by rfl

/-- C8 (amended): with zero capacity the greedy allocator does return the
trivial all-zero allocation; but zero recipients with positive capacity
make it fail on an empty-domain `argmax`, and the annealing solver run with
`K` equal to the universe size does not keep the full universe opened:
its first accepted move swaps a real site for the sentinel `-1` produced
by `nearest_neighbor` on the empty closed-site world. -/
theorem degenerate_inputs :
    (∀ B : BEDTable, (∀ row ∈ B, 2 ≤ row.length) →
        HeuristicOptimizer.get_optimum B 0 = some (List.replicate B.length 0))
  ∧ (anneal_run allTen2 ({0, 1} : Finset ℤ) [⟨0, true⟩]).opened ≠ dcFinset 2 := by
  constructor
  · intro B h
    obtain ⟨benefit, hbe⟩ := benefit_init_exists B h
    unfold HeuristicOptimizer.get_optimum
    rw [hbe]
    rfl
  · decide

/-- Witness for `degenerate_inputs` at a concrete table. -/
theorem degenerate_inputs_witness :
    HeuristicOptimizer.get_optimum [[1, 2], [3, 4]] 0
      = some (List.replicate ([[1, 2], [3, 4]] : BEDTable).length 0) :=
  degenerate_inputs.1 [[1, 2], [3, 4]] (by decide)

/-- C9: across one more iteration of the annealing loop the tracked best
cost becomes the minimum of the previous best and the new current state's
cost — so it is updated exactly when the new cost is strictly smaller, and
it never increases from iteration to iteration. -/
theorem anneal_best_cost_monotone (D : List (List ℤ)) (init : Finset ℤ)
    (stream : List StepRand) (r : StepRand) :
    (anneal_run D init (stream ++ [r])).optimal_cost
      = min (anneal_run D init stream).optimal_cost
          (compute_cost D (anneal_run D init (stream ++ [r])).opened)
  ∧ (anneal_run D init (stream ++ [r])).optimal_cost
      ≤ (anneal_run D init stream).optimal_cost := by
  have hrun : anneal_run D init (stream ++ [r])
      = anneal_step D (anneal_run D init stream) r := by
    unfold anneal_run
    rw [List.foldl_append]
    rfl
  rw [hrun]
  simp only [anneal_step]
  by_cases hc : compute_cost D (maybe_mutate D (anneal_run D init stream).opened r)
      < (anneal_run D init stream).optimal_cost
  · rw [if_pos hc]
    exact ⟨(min_eq_right (le_of_lt hc)).symm, le_of_lt hc⟩
  · rw [if_neg hc]
    exact ⟨(min_eq_left (not_lt.mp hc)).symm, le_refl _⟩

/-! ## Annealing: set membership and nearest-neighbour lemmas -/

theorem mem_ascMembers (N : ℕ) (s : Finset ℤ) (x : ℤ) :
    x ∈ ascMembers N s ↔ x ∈ s ∧ -1 ≤ x ∧ x < (N : ℤ) := by
  unfold ascMembers
  constructor
  · intro hx
    rw [List.mem_filter] at hx
    obtain ⟨hmem, hp⟩ := hx
    rw [List.mem_map] at hmem
    obtain ⟨k, hk, hke⟩ := hmem
    rw [List.mem_range] at hk
    refine ⟨?_, by omega, by omega⟩
    simpa using hp
  · intro hx
    obtain ⟨hmem, h1, h2⟩ := hx
    rw [List.mem_filter]
    refine ⟨?_, by simpa⟩
    rw [List.mem_map]
    exact ⟨(x + 1).toNat, by rw [List.mem_range]; omega, by omega⟩

theorem mem_dcFinset (N : ℕ) (x : ℤ) : x ∈ dcFinset N ↔ 0 ≤ x ∧ x < (N : ℤ) := by
  unfold dcFinset
  rw [Finset.mem_map]
  constructor
  · intro hx
    obtain ⟨k, hk, hke⟩ := hx
    rw [Finset.mem_range] at hk
    simp only [Function.Embedding.coeFn_mk] at hke
    omega
  · intro hx
    refine ⟨x.toNat, ?_, ?_⟩
    · rw [Finset.mem_range]; omega
    · simp only [Function.Embedding.coeFn_mk]; omega

theorem dcFinset_card (N : ℕ) : (dcFinset N).card = N := by
  unfold dcFinset
  rw [Finset.card_map, Finset.card_range]

theorem nnFold_cases (D : List (List ℤ)) (here : ℤ) :
    ∀ (world : List ℤ) (acc : ℤ × ℤ),
      world.foldl (nnStep D here) acc = acc ∨
        (world.foldl (nnStep D here) acc).2 ∈ world
  | [], _ => Or.inl rfl
  | w :: ws, acc => by
    rw [List.foldl_cons]
    by_cases hc : dget D here w < acc.1
    · have hstep : nnStep D here acc w = (dget D here w, w) := if_pos hc
      rw [hstep]
      rcases nnFold_cases D here ws (dget D here w, w) with heq | hmem
      · right
        rw [heq]
        exact List.mem_cons_self w ws
      · right
        exact List.mem_cons_of_mem _ hmem
    · have hstep : nnStep D here acc w = acc := if_neg hc
      rw [hstep]
      rcases nnFold_cases D here ws acc with heq | hmem
      · exact Or.inl heq
      · exact Or.inr (List.mem_cons_of_mem _ hmem)

theorem nnFold_min (D : List (List ℤ)) (here : ℤ) :
    ∀ (world : List ℤ) (acc : ℤ × ℤ),
      (∀ w ∈ world, (world.foldl (nnStep D here) acc).1 ≤ dget D here w)
    ∧ (world.foldl (nnStep D here) acc).1 ≤ acc.1
  | [], _ => ⟨by simp, le_refl _⟩
  | w :: ws, acc => by
    rw [List.foldl_cons]
    by_cases hc : dget D here w < acc.1
    · have hstep : nnStep D here acc w = (dget D here w, w) := if_pos hc
      rw [hstep]
      obtain ⟨hall, hacc⟩ := nnFold_min D here ws (dget D here w, w)
      refine ⟨?_, le_trans hacc (le_of_lt hc)⟩
      intro v hv
      rcases List.mem_cons.mp hv with hv' | hv'
      · rw [hv']
        exact hacc
      · exact hall v hv'
    · have hstep : nnStep D here acc w = acc := if_neg hc
      rw [hstep]
      obtain ⟨hall, hacc⟩ := nnFold_min D here ws acc
      refine ⟨?_, hacc⟩
      intro v hv
      rcases List.mem_cons.mp hv with hv' | hv'
      · rw [hv']
        exact le_trans hacc (not_lt.mp hc)
      · exact hall v hv'

/-- When some candidate in `world` is strictly below the starting bound
`10000`, `nearest_neighbor` returns an actual member of `world` (and not
the sentinel `-1`). -/
theorem nearest_mem (D : List (List ℤ)) (here : ℤ) (world : List ℤ)
    (h : ∃ w ∈ world, dget D here w < 10000) :
    (nearest_neighbor D here world).2 ∈ world := by
  unfold nearest_neighbor
  rcases nnFold_cases D here world (10000, -1) with heq | hmem
  · exfalso
    obtain ⟨w, hw, hlt⟩ := h
    have hle := (nnFold_min D here world (10000, -1)).1 w hw
    rw [heq] at hle
    exact absurd hlt (not_lt.mpr hle)
  · exact hmem

/-- Distance lookups between genuine site indices stay below the sentinel
bound when all matrix entries do. -/
theorem dget_lt_sentinel (D : List (List ℤ))
    (hsq : ∀ row ∈ D, row.length = D.length)
    (hd : ∀ p < D.length, ∀ q < D.length, (D.getD p []).getD q 0 < 10000)
    (x y : ℤ) (hx : 0 ≤ x ∧ x < (D.length : ℤ)) (hy : 0 ≤ y ∧ y < (D.length : ℤ)) :
    dget D x y < 10000 := by
  simp only [dget]
  have hxm : x % (D.length : ℤ) = x := Int.emod_eq_of_lt hx.1 hx.2
  have hym : y % (D.length : ℤ) = y := Int.emod_eq_of_lt hy.1 hy.2
  rw [hxm]
  have hxlt : x.toNat < D.length := by omega
  have hrow : (D.getD x.toNat []).length = D.length :=
    hsq _ (getD_mem_of_lt D [] x.toNat hxlt)
  rw [hrow, hym]
  exact hd x.toNat hxlt y.toNat (by omega)

/-- One mutation step keeps the opened set inside the universe and of
cardinality `K`, provided all distances are below the sentinel and
`0 < K < N`. -/
theorem get_neighbor_spec (D : List (List ℤ)) (K : ℕ) (opened : Finset ℤ) (pick : ℕ)
    (hsq : ∀ row ∈ D, row.length = D.length)
    (hd : ∀ p < D.length, ∀ q < D.length, (D.getD p []).getD q 0 < 10000)
    (hsub : opened ⊆ dcFinset D.length) (hcard : opened.card = K)
    (hK : 0 < K) (hKN : K < D.length) :
    get_neighbor D opened pick ⊆ dcFinset D.length ∧
      (get_neighbor D opened pick).card = K := by
  unfold get_neighbor
  set lst := ascMembers D.length opened with hlst
  have hlstne : lst ≠ [] := by
    obtain ⟨x, hx⟩ := Finset.card_pos.mp (by omega : 0 < opened.card)
    have hxb := (mem_dcFinset _ _).mp (hsub hx)
    exact List.ne_nil_of_mem ((mem_ascMembers _ _ _).mpr ⟨hx, by omega, hxb.2⟩)
  have hlen : 0 < lst.length := List.length_pos.mpr hlstne
  have hprev : lst.getD (pick % lst.length) 0 ∈ opened := by
    have hmem := getD_mem_of_lt lst 0 (pick % lst.length) (Nat.mod_lt _ hlen)
    exact ((mem_ascMembers _ _ _).mp (hlst ▸ hmem)).1
  set previous := lst.getD (pick % lst.length) 0 with hprevdef
  have hdiffcard : (dcFinset D.length \ opened).card = D.length - K := by
    rw [Finset.card_sdiff hsub, dcFinset_card, hcard]
  obtain ⟨w0, hw0⟩ := Finset.card_pos.mp (by omega : 0 < (dcFinset D.length \ opened).card)
  have hw0b := (mem_dcFinset _ _).mp (Finset.mem_sdiff.mp hw0).1
  have hw0l : w0 ∈ ascMembers D.length (dcFinset D.length \ opened) :=
    (mem_ascMembers _ _ _).mpr ⟨hw0, by omega, hw0b.2⟩
  have hprevb := (mem_dcFinset _ _).mp (hsub hprev)
  have hnnmem := nearest_mem D previous (ascMembers D.length (dcFinset D.length \ opened))
    ⟨w0, hw0l, dget_lt_sentinel D hsq hd previous w0 hprevb hw0b⟩
  have hnnsd := Finset.mem_sdiff.mp ((mem_ascMembers _ _ _).mp hnnmem).1
  constructor
  · exact Finset.insert_subset hnnsd.1
      (Finset.Subset.trans (Finset.erase_subset _ _) hsub)
  · rw [Finset.card_insert_of_not_mem
      (fun hmem => hnnsd.2 (Finset.mem_of_mem_erase hmem)),
      Finset.card_erase_of_mem hprev, hcard]
    omega

theorem anneal_step_invariant (D : List (List ℤ)) (K : ℕ)
    (hsq : ∀ row ∈ D, row.length = D.length)
    (hd : ∀ p < D.length, ∀ q < D.length, (D.getD p []).getD q 0 < 10000)
    (hK : 0 < K) (hKN : K < D.length) (s : AnnealState) (r : StepRand)
    (h1 : s.opened ⊆ dcFinset D.length) (h2 : s.opened.card = K)
    (h3 : s.optimum.card = K) :
    (anneal_step D s r).opened ⊆ dcFinset D.length ∧
      (anneal_step D s r).opened.card = K ∧ (anneal_step D s r).optimum.card = K := by
  have hmut : maybe_mutate D s.opened r ⊆ dcFinset D.length ∧
      (maybe_mutate D s.opened r).card = K := by
    unfold maybe_mutate
    obtain ⟨ha, hb⟩ := get_neighbor_spec D K s.opened r.pick hsq hd h1 h2 hK hKN
    by_cases hacc : r.acceptWorse = true ∨
        compute_cost D (get_neighbor D s.opened r.pick) - compute_cost D s.opened < 0
    · rw [if_pos hacc]
      exact ⟨ha, hb⟩
    · rw [if_neg hacc]
      exact ⟨h1, h2⟩
  unfold anneal_step
  by_cases hc : compute_cost D (maybe_mutate D s.opened r) < s.optimal_cost
  · rw [if_pos hc]
    exact ⟨hmut.1, hmut.2, hmut.2⟩
  · rw [if_neg hc]
    exact ⟨hmut.1, hmut.2, h3⟩

theorem anneal_fold_invariant (D : List (List ℤ)) (K : ℕ)
    (hsq : ∀ row ∈ D, row.length = D.length)
    (hd : ∀ p < D.length, ∀ q < D.length, (D.getD p []).getD q 0 < 10000)
    (hK : 0 < K) (hKN : K < D.length) :
    ∀ (stream : List StepRand) (s : AnnealState),
      s.opened ⊆ dcFinset D.length → s.opened.card = K → s.optimum.card = K →
      (stream.foldl (anneal_step D) s).opened ⊆ dcFinset D.length ∧
        (stream.foldl (anneal_step D) s).opened.card = K ∧
        (stream.foldl (anneal_step D) s).optimum.card = K
  | [], s, h1, h2, h3 => ⟨h1, h2, h3⟩
  | r :: rest, s, h1, h2, h3 => by
    rw [List.foldl_cons]
    obtain ⟨g1, g2, g3⟩ := anneal_step_invariant D K hsq hd hK hKN s r h1 h2 h3
    exact anneal_fold_invariant D K hsq hd hK hKN rest (anneal_step D s r) g1 g2 g3

/-- C5 (amended): provided every pairwise distance lies strictly below the
`10000` sentinel of `nearest_neighbor` and `0 < K < N`, the annealing run
keeps the current opened set (and the returned best set) inside the index
universe and of size exactly `K`, after initialisation and after every
iteration.  (Without the distance bound the sentinel `-1` can enter and
then shrink the set.) -/
theorem anneal_preserves_card (D : List (List ℤ)) (K : ℕ) (init : Finset ℤ)
    (stream : List StepRand)
    (hsq : ∀ row ∈ D, row.length = D.length)
    (hd : ∀ p < D.length, ∀ q < D.length, (D.getD p []).getD q 0 < 10000)
    (hsub : init ⊆ dcFinset D.length) (hcard : init.card = K)
    (hK : 0 < K) (hKN : K < D.length) :
    (anneal_run D init stream).opened.card = K
  ∧ (anneal_run D init stream).opened ⊆ dcFinset D.length
  ∧ (anneal_run D init stream).optimum.card = K := by
  obtain ⟨g1, g2, g3⟩ := anneal_fold_invariant D K hsq hd hK hKN stream
    ⟨init, init, compute_cost D init⟩ hsub hcard hcard
  exact ⟨g2, g1, g3⟩

/-- Witness for `anneal_preserves_card` on a concrete 2 × 2 instance. -/
theorem anneal_preserves_card_witness :
    (anneal_run smallD ({0} : Finset ℤ) [⟨0, false⟩]).opened.card = 1
  ∧ (anneal_run smallD ({0} : Finset ℤ) [⟨0, false⟩]).opened ⊆ dcFinset smallD.length
  ∧ (anneal_run smallD ({0} : Finset ℤ) [⟨0, false⟩]).optimum.card = 1 :=
  anneal_preserves_card smallD 1 {0} [⟨0, false⟩] (by decide) (by decide)
    (by decide) (by decide) (by decide) (by decide)

/-- C5 counterexample: on a distance matrix all of whose entries equal the
sentinel bound `10000`, with `K = 2` opened among `N = 3` sites, the
second accepted move removes an opened site and re-adds the sentinel `-1`
already present, shrinking the opened set to size `1 ≠ K`. -/
theorem anneal_card_counterexample :
    ({0, 1} : Finset ℤ).card = 2
  ∧ (anneal_run allTen3 ({0, 1} : Finset ℤ) [⟨0, true⟩, ⟨1, true⟩]).opened.card = 1 := by
  constructor
  · decide
  · decide

/-! ## Sampled-index lemmas for the estimators -/

theorem nat_add_div_le (a b n : ℕ) (hn : 0 < n) : a / n + b / n ≤ (a + b) / n := by
  rw [Nat.le_div_iff_mul_le hn]
  have h1 := Nat.div_mul_le_self a n
  have h2 := Nat.div_mul_le_self b n
  have hexp : (a / n + b / n) * n = a / n * n + b / n * n := by ring
  omega

theorem accessedInds_step (U g : ℕ) (hg : 2 ≤ g) (hval : 2 * g ≤ U - 1) (i : ℕ) :
    i * (U - 1) / (g - 1) + 2 ≤ (i + 1) * (U - 1) / (g - 1) := by
  have hgpos : 0 < g - 1 := by omega
  have hdiv2 : 2 ≤ (U - 1) / (g - 1) := by
    rw [Nat.le_div_iff_mul_le hgpos]
    omega
  have hsplit : (i + 1) * (U - 1) = i * (U - 1) + (U - 1) := by ring
  calc i * (U - 1) / (g - 1) + 2
      ≤ i * (U - 1) / (g - 1) + (U - 1) / (g - 1) := by omega
    _ ≤ (i * (U - 1) + (U - 1)) / (g - 1) := nat_add_div_le _ _ _ hgpos
    _ = (i + 1) * (U - 1) / (g - 1) := by rw [hsplit]

theorem accessedInds_strictMono (U g : ℕ) (hg : 2 ≤ g) (hval : 2 * g ≤ U - 1) :
    StrictMono (fun i => i * (U - 1) / (g - 1)) :=
  strictMono_nat_of_lt_succ (fun i => by
    have := accessedInds_step U g hg hval i
    omega)

theorem accessedInds_length (U g : ℕ) : (accessedInds U g).length = g := by
  simp [accessedInds]

theorem accessedInds_head (U g : ℕ) (hg : 2 ≤ g) :
    (accessedInds U g).head? = some 0 := by
  unfold accessedInds
  conv_lhs => rw [show g = (g - 1) + 1 by omega, List.range_succ_eq_map]
  simp

theorem accessedInds_zero_mem (U g : ℕ) (hg : 2 ≤ g) : 0 ∈ accessedInds U g :=
  List.mem_of_mem_head? (accessedInds_head U g hg)

theorem accessedInds_getLast (U g : ℕ) (hg : 2 ≤ g) :
    (accessedInds U g).getLast? = some (U - 1) := by
  unfold accessedInds
  conv_lhs => rw [show g = (g - 1) + 1 by omega, List.range_succ, List.map_append]
  simp only [List.map_cons, List.map_nil, Nat.add_sub_cancel]
  rw [List.getLast?_concat, Nat.mul_div_cancel_left _ (by omega : 0 < g - 1)]

theorem accessedInds_pairwise (U g : ℕ) (hg : 2 ≤ g) (hval : 2 * g ≤ U - 1) :
    (accessedInds U g).Pairwise (· < ·) := by
  unfold accessedInds
  rw [List.pairwise_map]
  exact (List.pairwise_lt_range g).imp
    (fun hab => accessedInds_strictMono U g hg hval hab)

theorem accessedInds_nodup (U g : ℕ) (hg : 2 ≤ g) (hval : 2 * g ≤ U - 1) :
    (accessedInds U g).Nodup :=
  (accessedInds_pairwise U g hg hval).imp (fun hab => Nat.ne_of_lt hab)

theorem accessedInds_le (U g : ℕ) (hg : 2 ≤ g) (hval : 2 * g ≤ U - 1) :
    ∀ x ∈ accessedInds U g, x ≤ U - 1 := by
  intro x hx
  unfold accessedInds at hx
  rw [List.mem_map] at hx
  obtain ⟨i, hi, rfl⟩ := hx
  rw [List.mem_range] at hi
  have hmono := (accessedInds_strictMono U g hg hval).monotone
    (show i ≤ g - 1 by omega)
  calc i * (U - 1) / (g - 1) ≤ (g - 1) * (U - 1) / (g - 1) := hmono
    _ = U - 1 := Nat.mul_div_cancel_left _ (by omega)

/-- C10: for every granularity that passes the range validation, the
generated sample list starts with `int(0 * interp_step) = 0`, so the fatal
missing-anchor branch of `estimate` is unreachable: the call returns a
matrix and never the `missingAnchor` failure. -/
theorem missing_anchor_unreachable (B : BEDTable) (g : ℕ)
    (hg : 2 ≤ g) (hval : 2 * g ≤ numCols B - 1) :
    (accessedInds (numCols B) g).head? = some 0
  ∧ BEDPredictorUpperBoundNaive.estimate B g ≠ Except.error EstErr.missingAnchor
  ∧ ∃ M, BEDPredictorUpperBoundNaive.estimate B g = Except.ok M := by
  have hmem : 0 ∈ accessedInds (numCols B) g := accessedInds_zero_mem (numCols B) g hg
  have hok : BEDPredictorUpperBoundNaive.estimate B g
      = Except.ok (List.zipWith (· ++ ·)
          (first_n_estimates B (accessedInds (numCols B) g))
          (last_n_estimates B (accessedInds (numCols B) g))) := by
    unfold BEDPredictorUpperBoundNaive.estimate
    rw [if_neg (by omega), if_pos hmem]
  refine ⟨accessedInds_head (numCols B) g hg, ?_, ⟨_, hok⟩⟩
  rw [hok]
  intro hcontra
  exact Except.noConfusion hcontra

/-- Witness for `missing_anchor_unreachable` at a concrete table and
granularity. -/
theorem missing_anchor_unreachable_witness :
    (accessedInds (numCols [[0, 1, 2, 3, 4]]) 2).head? = some 0
  ∧ BEDPredictorUpperBoundNaive.estimate [[0, 1, 2, 3, 4]] 2
      ≠ Except.error EstErr.missingAnchor
  ∧ ∃ M, BEDPredictorUpperBoundNaive.estimate [[0, 1, 2, 3, 4]] 2 = Except.ok M :=
  missing_anchor_unreachable [[0, 1, 2, 3, 4]] 2 (by decide) (by decide)

/-- C7: both estimators reject a granularity outside `[2, (U-1)/2]` with
the failure sentinel and no partial matrix, and inside the range neither
fails this validation — both return a full estimated matrix. -/
theorem granularity_validation (B : BEDTable) (s : PredictorState) (g : ℕ) :
    ((g ≤ 1 ∨ 2 * g > numCols B - 1) →
        (LinearBEDPredictor.estimate B s g).1 = Except.error EstErr.invalidGranularity
      ∧ BEDPredictorUpperBoundNaive.estimate B g = Except.error EstErr.invalidGranularity)
  ∧ (2 ≤ g → 2 * g ≤ numCols B - 1 →
        (∃ M, (LinearBEDPredictor.estimate B s g).1 = Except.ok M)
      ∧ ∃ M, BEDPredictorUpperBoundNaive.estimate B g = Except.ok M) := by
  constructor
  · intro hbad
    constructor
    · unfold LinearBEDPredictor.estimate
      rw [if_pos hbad]
    · unfold BEDPredictorUpperBoundNaive.estimate
      rw [if_pos hbad]
  · intro h1 h2
    constructor
    · unfold LinearBEDPredictor.estimate
      rw [if_neg (by omega)]
      exact ⟨_, rfl⟩
    · have hmem : 0 ∈ accessedInds (numCols B) g := accessedInds_zero_mem (numCols B) g h1
      unfold BEDPredictorUpperBoundNaive.estimate
      rw [if_neg (by omega), if_pos hmem]
      exact ⟨_, rfl⟩

/-- Witness for `granularity_validation`: a rejected granularity (`5` on a
5-column table) and an accepted one (`2`). -/
theorem granularity_validation_witness :
    (LinearBEDPredictor.estimate [[0, 1, 2, 3, 4]] ⟨0, []⟩ 5).1
      = Except.error EstErr.invalidGranularity
  ∧ ∃ M, BEDPredictorUpperBoundNaive.estimate [[0, 1, 2, 3, 4]] 2 = Except.ok M :=
  ⟨((granularity_validation [[0, 1, 2, 3, 4]] ⟨0, []⟩ 5).1 (by decide)).1,
   ((granularity_validation [[0, 1, 2, 3, 4]] ⟨0, []⟩ 2).2 (by decide) (by decide)).2⟩

/-! ## Access counting for the linear predictor -/

theorem runAccesses_fresh (B : BEDTable) :
    ∀ (l : List (ℕ × ℕ)) (s : PredictorState), l.Nodup →
      (∀ p ∈ l, p ∉ s.accessed) →
      (runAccesses B l s).access_counter = s.access_counter + l.length
  | [], s, _, _ => by simp [runAccesses]
  | p :: t, s, hnd, hfresh => by
    have hp : p ∉ s.accessed := hfresh p (List.mem_cons_self p t)
    have hstep : (getBED B s p.1 p.2).2
        = (⟨s.access_counter + 1, p :: s.accessed⟩ : PredictorState) := by
      unfold getBED
      rw [if_neg hp]
    obtain ⟨hpt, hts⟩ := List.nodup_cons.mp hnd
    have hrec := runAccesses_fresh B t
      (⟨s.access_counter + 1, p :: s.accessed⟩ : PredictorState) hts (by
        intro q hq
        rw [List.mem_cons]
        rintro (hq1 | hq2)
        · exact hpt (hq1 ▸ hq)
        · exact hfresh q (List.mem_cons_of_mem p hq) hq2)
    have hfold : runAccesses B (p :: t) s = runAccesses B t ((getBED B s p.1 p.2).2) := by
      simp [runAccesses]
    rw [hfold, hstep, hrec]
    simp only [List.length_cons]
    omega

theorem pairs_nodup_aux (inds : List ℕ) (hn : inds.Nodup) :
    ∀ (l : List ℕ), l.Nodup →
      (l.flatMap (fun i => inds.map (fun j => (i, j)))).Nodup
  | [], _ => by simp
  | i :: t, hnd => by
    rw [List.flatMap_cons, List.nodup_append]
    obtain ⟨hit, hts⟩ := List.nodup_cons.mp hnd
    refine ⟨hn.map (fun a b hab => (Prod.ext_iff.mp hab).2),
      pairs_nodup_aux inds hn t hts, ?_⟩
    intro x hx1 hx2
    rw [List.mem_map] at hx1
    obtain ⟨j, hj, hxj⟩ := hx1
    rw [List.mem_flatMap] at hx2
    obtain ⟨a, ha, hx2m⟩ := hx2
    rw [List.mem_map] at hx2m
    obtain ⟨b, hb, hab⟩ := hx2m
    have hai : a = i := by
      have := (Prod.ext_iff.mp (hab.trans hxj.symm)).1
      exact this
    exact hit (hai ▸ ha)

theorem pairs_length (inds : List ℕ) (R : ℕ) :
    ((List.range R).flatMap (fun i => inds.map (fun j => (i, j)))).length
      = R * inds.length := by
  rw [List.length_flatMap]
  have h1 : List.map (List.length ∘ fun i => inds.map (fun j => (i, j)))
      (List.range R) = List.map (fun _ => inds.length) (List.range R) := by
    apply List.map_congr_left
    intro a _
    simp
  rw [h1, List.map_const', List.length_range, List.sum_replicate, smul_eq_mul]

/-- C6: a valid `estimate` call of the linear predictor performs exactly
`R * g` distinct real accesses — whatever metering state the instance
carried before the call, since the counter and log are reset at the start —
and therefore a second call on the resulting state reports the same
count. -/
theorem linear_access_count (B : BEDTable) (s : PredictorState) (g : ℕ)
    (hg : 2 ≤ g) (hval : 2 * g ≤ numCols B - 1) :
    (LinearBEDPredictor.estimate B s g).2.access_counter = B.length * g
  ∧ (LinearBEDPredictor.estimate B
      (LinearBEDPredictor.estimate B s g).2 g).2.access_counter = B.length * g := by
  have key : ∀ s' : PredictorState,
      (LinearBEDPredictor.estimate B s' g).2.access_counter = B.length * g := by
    intro s'
    unfold LinearBEDPredictor.estimate
    rw [if_neg (by omega)]
    show (runAccesses B ((List.range B.length).flatMap
        (fun i => (accessedInds (numCols B) g).map (fun j => (i, j))))
        ⟨0, []⟩).access_counter = B.length * g
    have hnodup : ((List.range B.length).flatMap
        (fun i => (accessedInds (numCols B) g).map (fun j => (i, j)))).Nodup :=
      pairs_nodup_aux _ (accessedInds_nodup (numCols B) g hg hval) _
        (List.nodup_range _)
    rw [runAccesses_fresh B _ ⟨0, []⟩ hnodup (by intro p _ hmem; simp at hmem),
      pairs_length]
    simp [accessedInds_length]
  exact ⟨key s, key _⟩

/-- Witness for `linear_access_count` on a one-recipient, five-column
table at granularity `2`. -/
theorem linear_access_count_witness :
    (LinearBEDPredictor.estimate [[0, 1, 2, 3, 4]] ⟨0, []⟩ 2).2.access_counter
      = ([[0, 1, 2, 3, 4]] : BEDTable).length * 2 :=
  (linear_access_count [[0, 1, 2, 3, 4]] ⟨0, []⟩ 2 (by decide) (by decide)).1

/-! ## The naive upper-bound estimator: structure of the flat fill -/

theorem gap_cons (t : List ℕ) (x : ℕ) (i : ℕ) :
    get_interp_gap (x :: t) (i + 1) (i + 1 + 1) = get_interp_gap t i (i + 1) := by
  simp only [get_interp_gap, List.length_cons, List.getD_cons_succ]
  rcases Nat.lt_or_ge t.length (i + 2) with h | h
  · rw [if_pos (by omega), if_pos (by omega)]
  · rw [if_neg (by omega), if_neg (by omega)]

theorem flatMap_enumFrom_succ (val : ℕ → ℤ) (x : ℕ) (t : List ℕ) :
    ∀ (u : List ℕ) (k : ℕ),
      (List.enumFrom (k + 1) u).flatMap
        (fun p => List.replicate (get_interp_gap (x :: t) p.1 (p.1 + 1)) (val p.2))
      = (List.enumFrom k u).flatMap
        (fun p => List.replicate (get_interp_gap t p.1 (p.1 + 1)) (val p.2))
  | [], _ => by simp
  | a :: u, k => by
    rw [List.enumFrom_cons, List.enumFrom_cons, List.flatMap_cons, List.flatMap_cons,
      flatMap_enumFrom_succ val x t u (k + 1)]
    simp only []
    rw [gap_cons t x k]

theorem first_row_flat_eq_aux (val : ℕ → ℤ) :
    ∀ rev : List ℕ, first_row_flat val rev = firstFlatAux val rev
  | [] => by simp [first_row_flat, firstFlatAux]
  | [j] => by
    simp [first_row_flat, firstFlatAux, get_interp_gap, List.enum]
  | j :: j' :: rest => by
    unfold first_row_flat
    rw [List.enum_cons, List.flatMap_cons]
    have hgap : get_interp_gap (j :: j' :: rest) 0 (0 + 1) = j - j' := by
      simp [get_interp_gap]
    simp only []
    rw [hgap]
    have hshift := flatMap_enumFrom_succ val j (j' :: rest) (j' :: rest) 0
    rw [hshift]
    have hrec := first_row_flat_eq_aux val (j' :: rest)
    unfold first_row_flat at hrec
    rw [show List.enumFrom 0 (j' :: rest) = (j' :: rest).enum from rfl, hrec]
    simp [firstFlatAux]

theorem chain_gt_le_head : ∀ (x : ℕ) (l : List ℕ),
    List.Chain' (· > ·) (x :: l) → ∀ y ∈ x :: l, y ≤ x
  | x, [], _, y, hy => by
    simp at hy
    omega
  | x, x' :: l, hch, y, hy => by
    rw [List.chain'_cons] at hch
    rcases List.mem_cons.mp hy with hy' | hy'
    · omega
    · have := chain_gt_le_head x' l hch.2 y hy'
      have hxx := hch.1
      omega

theorem firstFlatAux_length (val : ℕ → ℤ) :
    ∀ (rev : List ℕ), List.Chain' (· > ·) rev → rev.getLast? = some 0 →
      (firstFlatAux val rev).length = rev.headD 0 + 1
  | [], _, hlast => by simp at hlast
  | [j], _, hlast => by
    have hj : j = 0 := by simpa using hlast
    subst hj
    simp [firstFlatAux]
  | j :: j' :: rest, hch, hlast => by
    rw [List.chain'_cons] at hch
    rw [List.getLast?_cons_cons] at hlast
    have ih := firstFlatAux_length val (j' :: rest) hch.2 hlast
    have hgt : j > j' := hch.1
    simp only [firstFlatAux, List.length_append, List.length_replicate, ih,
      List.headD_cons]
    omega

theorem firstFlatAux_getD (val : ℕ → ℤ) :
    ∀ (rev : List ℕ), List.Chain' (· > ·) rev → rev.getLast? = some 0 →
      ∀ c, c ≤ rev.headD 0 →
        ∃ s ∈ rev, c ≤ s ∧ (firstFlatAux val rev).reverse.getD c 0 = val s ∧
          ∀ t ∈ rev, c ≤ t → s ≤ t
  | [], _, hlast, _, _ => by simp at hlast
  | [j], _, hlast, c, hc => by
    have hj : j = 0 := by simpa using hlast
    subst hj
    have hc0 : c = 0 := by simpa using hc
    subst hc0
    refine ⟨0, by simp, le_refl 0, ?_, by simp⟩
    simp [firstFlatAux]
  | j :: j' :: rest, hch, hlast, c, hc => by
    rw [List.chain'_cons] at hch
    rw [List.getLast?_cons_cons] at hlast
    have hgt : j > j' := hch.1
    have hlen := firstFlatAux_length val (j' :: rest) hch.2 hlast
    rw [List.headD_cons] at hc
    simp only [firstFlatAux, List.reverse_append, List.reverse_replicate]
    by_cases hcle : c ≤ j'
    · obtain ⟨s, hs, hcs, hval, hmin⟩ :=
        firstFlatAux_getD val (j' :: rest) hch.2 hlast c
          (by rw [List.headD_cons]; exact hcle)
      refine ⟨s, List.mem_cons_of_mem j hs, hcs, ?_, ?_⟩
      · rw [List.getD_append _ _ _ _ (by
          rw [List.length_reverse, hlen, List.headD_cons]
          omega)]
        exact hval
      · intro t ht hct
        rcases List.mem_cons.mp ht with ht' | ht'
        · have hs_le : s ≤ j' := chain_gt_le_head j' rest hch.2 s hs
          omega
        · exact hmin t ht' hct
    · refine ⟨j, List.mem_cons_self j _, hc, ?_, ?_⟩
      · rw [List.getD_append_right _ _ _ _ (by
          rw [List.length_reverse, hlen, List.headD_cons]
          omega)]
        rw [List.length_reverse, hlen, List.headD_cons,
          List.getD_eq_getElem?_getD, List.getElem?_replicate,
          if_pos (by omega), Option.getD_some]
      · intro t ht hct
        rcases List.mem_cons.mp ht with ht' | ht'
        · omega
        · have := chain_gt_le_head j' rest hch.2 t ht'
          omega

theorem first_row_flat_length (val : ℕ → ℤ) (rev : List ℕ)
    (hch : List.Chain' (· > ·) rev) (hlast : rev.getLast? = some 0) :
    (first_row_flat val rev).length = rev.headD 0 + 1 := by
  rw [first_row_flat_eq_aux]
  exact firstFlatAux_length val rev hch hlast

theorem last_n_empty (B : BEDTable) (g : ℕ) (hg : 2 ≤ g)
    (hval : 2 * g ≤ numCols B - 1) :
    last_n_estimates B (accessedInds (numCols B) g)
      = (List.range B.length).map (fun _ => ([] : List ℤ)) := by
  have hlasti : (accessedInds (numCols B) g).getD
      ((accessedInds (numCols B) g).length - 1) 0 = numCols B - 1 := by
    rw [List.getD_eq_getElem?_getD, ← List.getLast?_eq_getElem?,
      accessedInds_getLast (numCols B) g hg, Option.getD_some]
  unfold last_n_estimates
  simp only []
  rw [hlasti, show numCols B - (numCols B - 1) - 1 = 0 by omega]
  simp

theorem naive_estimate_row (B : BEDTable) (g : ℕ) (hg : 2 ≤ g)
    (hval : 2 * g ≤ numCols B - 1) (r : ℕ) (hr : r < B.length) :
    (List.zipWith (· ++ ·) (first_n_estimates B (accessedInds (numCols B) g))
        (last_n_estimates B (accessedInds (numCols B) g))).getD r []
      = (first_row_flat (fun j => entry B r j)
          (accessedInds (numCols B) g).reverse).reverse := by
  have hlen1 : (first_n_estimates B (accessedInds (numCols B) g)).length = B.length := by
    simp [first_n_estimates]
  have hlen2 : (last_n_estimates B (accessedInds (numCols B) g)).length = B.length := by
    simp [last_n_estimates]
  have hrM : r < (List.zipWith (· ++ ·)
      (first_n_estimates B (accessedInds (numCols B) g))
      (last_n_estimates B (accessedInds (numCols B) g))).length := by
    rw [List.length_zipWith, hlen1, hlen2, min_self]
    exact hr
  rw [List.getD_eq_getElem?_getD, List.getElem?_eq_getElem hrM, Option.getD_some,
    List.getElem_zipWith]
  simp only [first_n_estimates, last_n_empty B g hg hval, List.getElem_map,
    List.getElem_range, List.append_nil]

theorem monoRow_le (row : List ℤ) (h : monoRow row) :
    ∀ a b : ℕ, a ≤ b → b < row.length → row.getD a 0 ≤ row.getD b 0 := by
  intro a b hab
  induction b, hab using Nat.le_induction with
  | base => intro _; exact le_refl _
  | succ n hn ih =>
    intro hb
    have hstep := h n (by omega) (by omega)
    have hprev := ih (by omega)
    omega

/-- C2 (amended): for every benefit table whose rows are monotone
non-decreasing (the domain assumption) and concave, and every valid
granularity, the naive estimator succeeds and every entry of its matrix is
at least the corresponding real entry; moreover column `c` of a row takes
the real value at the least sampled index `≥ c` (the flat-then-jump
construction; under exact index arithmetic the last sampled column is
`U - 1`, so the linear-extrapolation block is empty).  Concavity alone is
not enough: a concave decreasing row defeats the flat fill. -/
theorem naive_upper_bound (B : BEDTable) (g : ℕ)
    (hrows : ∀ row ∈ B, row.length = numCols B)
    (hmono : ∀ row ∈ B, monoRow row)
    (hconc : ∀ row ∈ B, concaveRow row)
    (hg : 2 ≤ g) (hval : 2 * g ≤ numCols B - 1) :
    ∃ M, BEDPredictorUpperBoundNaive.estimate B g = Except.ok M
      ∧ (∀ r < B.length, ∀ c < numCols B, entry B r c ≤ entry M r c)
      ∧ ∀ r < B.length, ∀ c < numCols B,
          ∃ b ∈ accessedInds (numCols B) g, c ≤ b ∧ entry M r c = entry B r b ∧
            ∀ a ∈ accessedInds (numCols B) g, c ≤ a → b ≤ a := by
  have hmem0 : 0 ∈ accessedInds (numCols B) g := accessedInds_zero_mem _ g hg
  have hok : BEDPredictorUpperBoundNaive.estimate B g
      = Except.ok (List.zipWith (· ++ ·)
          (first_n_estimates B (accessedInds (numCols B) g))
          (last_n_estimates B (accessedInds (numCols B) g))) := by
    unfold BEDPredictorUpperBoundNaive.estimate
    rw [if_neg (by omega), if_pos hmem0]
  have hch : List.Chain' (· > ·) (accessedInds (numCols B) g).reverse := by
    apply List.Pairwise.chain'
    rw [List.pairwise_reverse]
    exact accessedInds_pairwise (numCols B) g hg hval
  have hrevlast : (accessedInds (numCols B) g).reverse.getLast? = some 0 := by
    rw [List.getLast?_reverse]
    exact accessedInds_head (numCols B) g hg
  have hrevhead : (accessedInds (numCols B) g).reverse.headD 0 = numCols B - 1 := by
    rw [List.headD_eq_head?, List.head?_reverse,
      accessedInds_getLast (numCols B) g hg, Option.getD_some]
  have hstruct : ∀ r, r < B.length → ∀ c, c < numCols B →
      ∃ b ∈ accessedInds (numCols B) g, c ≤ b ∧
        entry (List.zipWith (· ++ ·)
          (first_n_estimates B (accessedInds (numCols B) g))
          (last_n_estimates B (accessedInds (numCols B) g))) r c = entry B r b ∧
        ∀ a ∈ accessedInds (numCols B) g, c ≤ a → b ≤ a := by
    intro r hr c hc
    obtain ⟨s, hs, hcs, hvaleq, hmin⟩ := firstFlatAux_getD (fun j => entry B r j)
      (accessedInds (numCols B) g).reverse hch hrevlast c (by rw [hrevhead]; omega)
    refine ⟨s, List.mem_reverse.mp hs, hcs, ?_, ?_⟩
    · unfold entry
      rw [naive_estimate_row B g hg hval r hr, first_row_flat_eq_aux]
      exact hvaleq
    · intro a ha hca
      exact hmin a (List.mem_reverse.mpr ha) hca
  refine ⟨_, hok, ?_, hstruct⟩
  intro r hr c hc
  obtain ⟨b, hb, hcb, heq, _⟩ := hstruct r hr c hc
  rw [heq]
  have hrowmem : B.getD r [] ∈ B := getD_mem_of_lt B [] r hr
  have hrowlen := hrows _ hrowmem
  have hble : b ≤ numCols B - 1 := accessedInds_le (numCols B) g hg hval b hb
  exact monoRow_le (B.getD r []) (hmono _ hrowmem) c b hcb (by omega)

/-- Witness for `naive_upper_bound` on a concrete monotone concave table. -/
theorem naive_upper_bound_witness :
    ∃ M, BEDPredictorUpperBoundNaive.estimate [[0, 2, 3, 3, 3]] 2 = Except.ok M
      ∧ (∀ r < ([[0, 2, 3, 3, 3]] : BEDTable).length,
          ∀ c < numCols [[0, 2, 3, 3, 3]],
            entry [[0, 2, 3, 3, 3]] r c ≤ entry M r c)
      ∧ ∀ r < ([[0, 2, 3, 3, 3]] : BEDTable).length,
          ∀ c < numCols [[0, 2, 3, 3, 3]],
            ∃ b ∈ accessedInds (numCols [[0, 2, 3, 3, 3]]) 2, c ≤ b ∧
              entry M r c = entry [[0, 2, 3, 3, 3]] r b ∧
              ∀ a ∈ accessedInds (numCols [[0, 2, 3, 3, 3]]) 2, c ≤ a → b ≤ a :=
  naive_upper_bound [[0, 2, 3, 3, 3]] 2 (by decide) (by decide) (by decide)
    (by decide) (by decide)

/-- C2 counterexample: on the concave but decreasing table
`[[0, -1, -2, -3, -4]]` with granularity `2`, the naive estimator fills
column `1` with the value sampled at column `4`, namely `-4`, which is
strictly below the real value `-1` — so concavity alone does not give the
upper-bound property. -/
theorem naive_upper_bound_counterexample :
    concaveRow [0, -1, -2, -3, -4]
  ∧ BEDPredictorUpperBoundNaive.estimate [[0, -1, -2, -3, -4]] 2
      = Except.ok [[0, -4, -4, -4, -4]]
  ∧ entry [[0, -4, -4, -4, -4]] 0 1 < entry [[0, -1, -2, -3, -4]] 0 1 :=
  ⟨by decide, by rfl, by decide⟩

/-! ## The evaluation harness scores with the matrix it solved with -/

/-- C1 (code bug): `_run_lp_model` scores the returned allocation with the
same matrix it built the model from — `self._sum_BED(BED, solution)` on
the parameter `BED` — so `get_predictor_solution` reports objectives read
off the estimated matrices, contradicting the method's own docstring
("the ACTUAL BED should be used when evaluating the quality of the
solution!").  On the demonstration instance the harness reports `5` for
granularity `2` (the estimated value of the chosen allocation) while the
same allocation scores `10` on the actual table; the last conjunct records
that the scoring matrix is always the solving matrix. -/
theorem harness_scores_with_estimated :
    AccuracyHandler.get_predictor_solution demoSolver
        (fun _ => Except.ok demoEstimated) [2] = Except.ok [(2, 5)]
  ∧ AccuracyHandler.run_lp_model demoSolver demoEstimated 100 = 5
  ∧ AccuracyHandler.sum_BED demoActual (demoSolver demoEstimated 100) = 10
  ∧ (5 : ℤ) ≠ 10
  ∧ ∀ (solver : BEDTable → ℕ → List (ℕ × ℕ)) (B : BEDTable) (capacity : ℕ),
      AccuracyHandler.run_lp_model solver B capacity
        = AccuracyHandler.sum_BED B (solver B capacity) :=
  ⟨rfl, rfl, rfl, by decide, fun _ _ _ => rfl⟩

end Proton
